import Mathlib

/-!
Verification development for the AssetAnalysis repository (a browser dashboard
that samples uploaded image assets, sends each to a remote analyzer, and
aggregates the per-asset results into a collection report).

The data model is embedded from src/types.ts; the aggregation pipeline, the
sampler and the upload run loop from src/App.tsx; the remote-service client
from the gemini service module.  JavaScript numbers are modelled as rationals,
JavaScript strings as Lean strings (char lists where character-level reasoning
is needed), thrown exceptions as `Option`/`none`, and the nondeterministic
shuffle and the remote service as explicit functional parameters.
-/

namespace AssetAnalysis

/-- One entry of a per-asset color distribution (src/types.ts, `ColorData`). -/
structure ColorData where
  name : String
  value : ℚ
  hex : String
deriving DecidableEq

/-- One CLIP-similarity comparison row (src/types.ts, `ComparisonItem`). -/
structure ComparisonItem where
  dataset : String
  similarity : ℚ
  styleMatch : String
deriving DecidableEq

/-- Per-asset analysis record (src/types.ts, `AnalysisResult`). -/
structure AnalysisResult where
  id : String
  thumbnail : String
  colorDistribution : List ColorData
  sharpness : ℚ
  complexity : ℚ
  saturation : ℚ
  styleFeatures : List String
  clipSimilarity : List ComparisonItem
  uniquenessScore : ℚ
  description : String
deriving DecidableEq

/-- Collection-level synthesis output (src/types.ts, `CollectionSummary`). -/
structure CollectionSummary where
  coreFeatures : List String
  promptFormula : String
deriving DecidableEq

/-- Aggregated report (src/types.ts, `GlobalReportData`); `summary` is an
optional field there, modelled as `Option`. -/
structure GlobalReportData where
  avgSharpness : ℚ
  avgComplexity : ℚ
  avgUniqueness : ℚ
  topStyles : List String
  dominantColors : List ColorData
  recommendations : List String
  summary : Option CollectionSummary
deriving DecidableEq

/-! ### Aggregator (AnalysisDashboard.reportData, src/App.tsx lines 38-69)

The JavaScript `colorMap` object is a string-keyed record whose enumeration
order is insertion order, so it is embedded as an ordered association list:
updating an existing key keeps its position, a fresh key is appended. -/

/-- One step of the color-merge loop (src/App.tsx lines 45-50):
`colorMap[c.name] = { val: (colorMap[c.name]?.val || 0) + c.value, hex: c.hex }`.
An existing name keeps its position, its value is increased by the incoming
value, and its hex is overwritten with the incoming hex; a new name is
appended with the incoming value and hex. -/
def updateColor (m : List (String × ℚ × String)) (c : ColorData) :
    List (String × ℚ × String) :=
  if c.name ∈ m.map (fun e => e.1) then
    m.map (fun e => if e.1 = c.name then (e.1, e.2.1 + c.value, c.hex) else e)
  else
    m ++ [(c.name, c.value, c.hex)]

/-- The `colorMap` built by the nested `forEach` loops (src/App.tsx lines 44-50). -/
def buildColorMap (results : List AnalysisResult) : List (String × ℚ × String) :=
  results.foldl (fun m r => r.colorDistribution.foldl updateColor m) []

/-- Stable descending sort by `value`: the behaviour of the (stable)
`Array.prototype.sort` with comparator `(a, b) => b.value - a.value`
(src/App.tsx line 53).  Insertion sort with this relation is stable, and any
stable sort with a consistent comparator is extensionally unique. -/
def sortByValueDesc (l : List ColorData) : List ColorData :=
  l.insertionSort (fun a b => b.value ≤ a.value)

/-- `dominantColors` of the report (src/App.tsx lines 51-54): map the
accumulated entries to averaged `ColorData`, sort descending by value,
keep the top 5. -/
def dominantColors (results : List AnalysisResult) : List ColorData :=
  (sortByValueDesc ((buildColorMap results).map
    (fun e => ColorData.mk e.1 (e.2.1 / (results.length : ℚ)) e.2.2))).take 5

/-- `avgSharpness` (src/App.tsx line 40):
`results.reduce((acc, curr) => acc + curr.sharpness, 0) / total`. -/
def avgSharpness (results : List AnalysisResult) : ℚ :=
  (results.foldl (fun acc curr => acc + curr.sharpness) 0) / (results.length : ℚ)

/-- `avgComplexity` (src/App.tsx line 41). -/
def avgComplexity (results : List AnalysisResult) : ℚ :=
  (results.foldl (fun acc curr => acc + curr.complexity) 0) / (results.length : ℚ)

/-- `avgUniqueness` (src/App.tsx line 42). -/
def avgUniqueness (results : List AnalysisResult) : ℚ :=
  (results.foldl (fun acc curr => acc + curr.uniquenessScore) 0) / (results.length : ℚ)

/-- Iterating a JavaScript `Set` built from a list: insertion order with
duplicates skipped.  This embeds `Array.from(new Set(l))` (src/App.tsx line 60). -/
def jsSetFromList (l : List String) : List String :=
  l.foldl (fun acc x => if x ∈ acc then acc else acc ++ [x]) []

/-- `topStyles` (src/App.tsx line 60):
`Array.from(new Set(results.flatMap(r => r.styleFeatures))).slice(0, 4)`. -/
def topStyles (results : List AnalysisResult) : List String :=
  (jsSetFromList (results.flatMap (fun r => r.styleFeatures))).take 4

/-- The three literal advisory strings (src/App.tsx lines 62-66). -/
def recommendations : List String :=
  ["保持当前核心资产的高对比度线条风格。",
   "在多平台适配时建议统一色域饱和度至当前均值。",
   "对于独特性评分较低的部分，建议引入更具辨识度的装饰元素。"]

/-- The whole `reportData` memo (src/App.tsx lines 38-69); `summary || undefined`
is the identity on the `Option` model. -/
def reportData (results : List AnalysisResult) (summary : Option CollectionSummary) :
    GlobalReportData :=
  GlobalReportData.mk (avgSharpness results) (avgComplexity results)
    (avgUniqueness results) (topStyles results) (dominantColors results)
    recommendations summary

/-- The saturation entry of `radarData` (src/App.tsx line 75):
`results.reduce((a, b) => a + b.saturation, 0) / results.length`. -/
def radarSaturation (results : List AnalysisResult) : ℚ :=
  (results.foldl (fun a b => a + b.saturation) 0) / (results.length : ℚ)

/-! ### Main view (App, src/App.tsx lines 407-431) -/

/-- Which of the three mutually exclusive main views is rendered; the dashboard
constructor carries the derived report and the radar saturation mean, the two
quantities that divide by `results.length`. -/
inductive AppView where
  | uploader : AppView
  | loading : AppView
  | dashboard : GlobalReportData → ℚ → AppView
deriving DecidableEq

/-- The render conditions of `App` (src/App.tsx lines 412, 426, 428): uploader
iff not analyzing and no results, loading iff analyzing, dashboard iff not
analyzing and `results.length > 0`. -/
def appView (analyzing : Bool) (results : List AnalysisResult)
    (summary : Option CollectionSummary) : AppView :=
  if analyzing then AppView.loading
  else if results.length > 0 then
    AppView.dashboard (reportData results summary) (radarSaturation results)
  else AppView.uploader

/-! ### Upload run (App.handleUpload, src/App.tsx lines 358-398)

The random shuffle `files.sort(() => 0.5 - Math.random())` is modelled by an
explicit `shuffle` parameter (a stable in-place sort rearranges the array, so
its result is some permutation of the input; which one is nondeterministic).
The per-asset encode-and-analyze step, whose thrown failures the loop catches,
is modelled as an `Option`-returning function, and so is the synthesis call. -/

/-- The sampler (src/App.tsx line 362):
`files.length > 6 ? files.sort(...).slice(0, 6) : files`. -/
def sampler {α : Type} (shuffle : List α → List α) (files : List α) : List α :=
  if files.length > 6 then (shuffle files).take 6 else files

/-- The per-asset loop (src/App.tsx lines 364-382): each sample is processed
once, a successful step appends its result to the buffer, a failure is caught
and the loop moves on. -/
def runAnalysis {α : Type} (step : α → Option AnalysisResult) (samples : List α) :
    List AnalysisResult :=
  samples.foldl (fun buf a =>
    match step a with
    | some r => buf ++ [r]
    | none => buf) []

/-- Final `(results, summary)` state set by `handleUpload` (src/App.tsx lines
358-398) for a run started from the initial state: the synthesis call is made
only under the `resultsBuffer.length > 0` guard, and a caught synthesis
failure leaves the summary absent. -/
def handleUpload {α : Type} (step : α → Option AnalysisResult)
    (synth : List AnalysisResult → Option CollectionSummary)
    (shuffle : List α → List α) (files : List α) :
    List AnalysisResult × Option CollectionSummary :=
  let buf := runAnalysis step (sampler shuffle files)
  (buf, if buf.length > 0 then synth buf else none)

/-- The argument lists on which `handleUpload` invokes the synthesizer
(src/App.tsx lines 386-393): exactly one call, under the non-emptiness guard. -/
def synthCalls {α : Type} (step : α → Option AnalysisResult)
    (shuffle : List α → List α) (files : List α) : List (List AnalysisResult) :=
  let buf := runAnalysis step (sampler shuffle files)
  if buf.length > 0 then [buf] else []

/-! ### Remote analyzer client (geminiService, analyzeAsset) -/

/-- JavaScript `s.split(',')` on a char list: splits at every comma, keeping
empty segments, and yields one segment even for the empty string. -/
def splitOnCommaChars : List Char → List (List Char)
  | [] => [[]]
  | c :: cs =>
    if c = ',' then [] :: splitOnCommaChars cs
    else
      match splitOnCommaChars cs with
      | [] => [[c]]
      | p :: ps => (c :: p) :: ps

/-- JavaScript `s.split(',')` on strings. -/
def jsSplitComma (s : String) : List String :=
  (splitOnCommaChars s.toList).map (fun l => String.mk l)

/-- The inline data part of the analysis request: a media type plus the
(possibly missing) binary payload string. -/
structure InlineData where
  mimeType : String
  data : Option String
deriving DecidableEq

/-- The inline data sent by `analyzeAsset` (service module, request contents):
`{ mimeType: 'image/jpeg', data: imageBase64.split(',')[1] }` — a constant
media type, and index 1 of the comma-split input (`none` models `undefined`
when the split has fewer than two segments). -/
def analyzeRequest (imageBase64 : String) : InlineData :=
  InlineData.mk "image/jpeg" (jsSplitComma imageBase64)[1]?

/-- The parsed remote response: the `AnalysisResult` shape minus the two
client-assigned fields `id` and `thumbnail`. -/
structure RawAnalysis where
  colorDistribution : List ColorData
  sharpness : ℚ
  complexity : ℚ
  saturation : ℚ
  styleFeatures : List String
  clipSimilarity : List ComparisonItem
  uniquenessScore : ℚ
  description : String
deriving DecidableEq

/-- `analyzeAsset` (service module): send the request built from the input,
and on success spread the parsed data and attach the locally generated `id`
(`Math.random()...`, modelled as the parameter `newId`) and the full input
string as `thumbnail`.  A remote or parse failure is `none`. -/
def analyzeAsset (remote : InlineData → Option RawAnalysis) (newId : String)
    (imageBase64 : String) : Option AnalysisResult :=
  (remote (analyzeRequest imageBase64)).map (fun raw =>
    AnalysisResult.mk newId imageBase64 raw.colorDistribution raw.sharpness
      raw.complexity raw.saturation raw.styleFeatures raw.clipSimilarity
      raw.uniquenessScore raw.description)

/-! ### Specification-side definitions

These follow the wording of the specification and of the claims, by
computations independent of the source embedding above, for the refinement
statements. -/

/-- Deduplication keeping the first occurrence of each element, written with an
explicit seen-set (spec wording: "deduplicate preserving first-occurrence
order"). -/
def dedupSeen : List String → List String → List String
  | _, [] => []
  | seen, x :: xs =>
    if x ∈ seen then dedupSeen seen xs else x :: dedupSeen (x :: seen) xs

/-- All color tuples across every result's distribution, in result order. -/
def allColors (results : List AnalysisResult) : List ColorData :=
  results.flatMap (fun r => r.colorDistribution)

/-- The color map built by folding `updateColor` over one flat list of colors;
equal to `buildColorMap` (proved below). -/
def accumColors (cs : List ColorData) : List (String × ℚ × String) :=
  cs.foldl updateColor []

/-- Spec wording: the total accumulated `value` for one color name, computed
directly as the sum over the tuples bearing that name. -/
def nameTotal (cs : List ColorData) (n : String) : ℚ :=
  ((cs.filter (fun c => c.name = n)).map (fun c => c.value)).sum

/-- The hex of the last tuple bearing a given name (what the code keeps). -/
def lastHexD (cs : List ColorData) (n : String) : String :=
  ((((cs.filter (fun c => c.name = n)).map (fun c => c.hex)).getLast?).getD "")

/-- The hex of the first tuple bearing a given name (what the claim says is
kept). -/
def firstHexD (cs : List ColorData) (n : String) : String :=
  ((((cs.filter (fun c => c.name = n)).map (fun c => c.hex)).head?).getD "")

/-- The claim's color-merge computation amended to keep the last-seen hex:
for each distinct name in first-occurrence order, sum that name's values,
keep the hex of its last tuple, divide the sum by the number of results,
sort descending by averaged value, take the top 5. -/
def specDominantColors (results : List AnalysisResult) : List ColorData :=
  (sortByValueDesc ((dedupSeen [] ((allColors results).map (fun c => c.name))).map
    (fun n => ColorData.mk n (nameTotal (allColors results) n / (results.length : ℚ))
      (lastHexD (allColors results) n)))).take 5

/-- The color-merge computation exactly as the claim states it: identical to
`specDominantColors` except that the first-seen hex for a name wins. -/
def specDominantColorsFirstHex (results : List AnalysisResult) : List ColorData :=
  (sortByValueDesc ((dedupSeen [] ((allColors results).map (fun c => c.name))).map
    (fun n => ColorData.mk n (nameTotal (allColors results) n / (results.length : ℚ))
      (firstHexD (allColors results) n)))).take 5

/-- Claim wording for the analyzer payload: the substring of the input after
its first comma (`none` when the input has no comma). -/
def afterFirstCommaChars : List Char → Option (List Char)
  | [] => none
  | c :: cs => if c = ',' then some cs else afterFirstCommaChars cs

/-- String version of `afterFirstCommaChars`. -/
def afterFirstComma (s : String) : Option String :=
  (afterFirstCommaChars s.toList).map (fun l => String.mk l)

/-! ### Concrete inputs used by witnesses and counterexamples -/

/-- Builder for concrete analysis records, fixing the fields irrelevant to a
given check. -/
def mkResult (colors : List ColorData) (sh co sa un : ℚ) (styles : List String) :
    AnalysisResult :=
  AnalysisResult.mk "id0" "thumb0" colors sh co sa styles [] un "desc0"

/-- First color-collision input: color A, value 50, hex #111. -/
def cexA : AnalysisResult := mkResult [ColorData.mk "A" 50 "#111"] 0 0 0 0 []

/-- Second color-collision input: color A, value 50, hex #222. -/
def cexB : AnalysisResult := mkResult [ColorData.mk "A" 50 "#222"] 0 0 0 0 []

/-- A result with saturation 10; identical to `satHigh` except saturation. -/
def satLow : AnalysisResult := mkResult [] 40 40 10 40 ["S"]

/-- A result with saturation 90; identical to `satLow` except saturation. -/
def satHigh : AnalysisResult :=
  AnalysisResult.mk "id0" "thumb0" [] 40 40 90 ["S"] [] 40 "desc0"

/-- A generic successful analysis record for run-level witnesses. -/
def dummyResult : AnalysisResult := mkResult [] 30 30 30 30 ["T"]

/-- A per-asset step that always succeeds with `dummyResult`. -/
def stepSome : Unit → Option AnalysisResult := fun _ => some dummyResult

/-- A synthesizer stub that always succeeds. -/
def synthSome : List AnalysisResult → Option CollectionSummary :=
  fun _ => some (CollectionSummary.mk [] "f")

/-! ### List helper lemmas -/

theorem foldl_add_eq_sum (f : AnalysisResult → ℚ) :
    ∀ (l : List AnalysisResult) (x : ℚ),
      l.foldl (fun acc r => acc + f r) x = x + (l.map f).sum
  | [], x => by simp
  | r :: l, x => by
    simp only [List.foldl_cons, List.map_cons, List.sum_cons]
    rw [foldl_add_eq_sum f l, add_assoc]

theorem sum_le_length_mul : ∀ (l : List ℚ) (hi : ℚ), (∀ x ∈ l, x ≤ hi) →
    l.sum ≤ (l.length : ℚ) * hi
  | [], _, _ => by simp
  | x :: l, hi, h => by
    have h1 : x ≤ hi := h x (List.mem_cons_self x l)
    have h2 := sum_le_length_mul l hi (fun y hy => h y (List.mem_cons_of_mem x hy))
    have h3 : x + l.sum ≤ hi + (l.length : ℚ) * hi := add_le_add h1 h2
    simp only [List.sum_cons, List.length_cons]
    push_cast
    linarith

theorem length_mul_le_sum : ∀ (l : List ℚ) (lo : ℚ), (∀ x ∈ l, lo ≤ x) →
    (l.length : ℚ) * lo ≤ l.sum
  | [], _, _ => by simp
  | x :: l, lo, h => by
    have h1 : lo ≤ x := h x (List.mem_cons_self x l)
    have h2 := length_mul_le_sum l lo (fun y hy => h y (List.mem_cons_of_mem x hy))
    have h3 : lo + (l.length : ℚ) * lo ≤ x + l.sum := add_le_add h1 h2
    simp only [List.sum_cons, List.length_cons]
    push_cast
    linarith

theorem runAnalysis_foldl_eq {α : Type} (step : α → Option AnalysisResult) :
    ∀ (samples : List α) (acc : List AnalysisResult),
      samples.foldl (fun buf a => match step a with
        | some r => buf ++ [r]
        | none => buf) acc = acc ++ samples.filterMap step
  | [], acc => by simp
  | a :: samples, acc => by
    simp only [List.foldl_cons, List.filterMap_cons]
    cases h : step a with
    | none => simp only [h, runAnalysis_foldl_eq step samples acc]
    | some r =>
      simp only [h, runAnalysis_foldl_eq step samples (acc ++ [r]), List.append_assoc,
        List.singleton_append]

/-! ### Deduplication lemmas -/

theorem mem_dedupSeen : ∀ (l seen : List String) (x : String),
    x ∈ dedupSeen seen l ↔ x ∈ l ∧ x ∉ seen
  | [], seen, x => by simp [dedupSeen]
  | y :: ys, seen, x => by
    by_cases hy : y ∈ seen
    · rw [dedupSeen, if_pos hy, mem_dedupSeen ys seen x]
      simp only [List.mem_cons]
      constructor
      · exact fun h => ⟨Or.inr h.1, h.2⟩
      · rintro ⟨h1 | h1, h2⟩
        · cases h1; exact absurd hy h2
        · exact ⟨h1, h2⟩
    · rw [dedupSeen, if_neg hy]
      simp only [List.mem_cons, mem_dedupSeen ys (y :: seen) x, List.mem_cons]
      by_cases hxy : x = y
      · subst hxy; simp [hy]
      · simp [hxy]

theorem dedupSeen_sublist : ∀ (l seen : List String), (dedupSeen seen l).Sublist l
  | [], _ => by simp [dedupSeen]
  | y :: ys, seen => by
    by_cases hy : y ∈ seen
    · rw [dedupSeen, if_pos hy]
      exact (dedupSeen_sublist ys seen).cons y
    · rw [dedupSeen, if_neg hy]
      exact (dedupSeen_sublist ys (y :: seen)).cons₂ y

theorem dedupSeen_nodup : ∀ (l seen : List String), (dedupSeen seen l).Nodup
  | [], _ => by simp [dedupSeen]
  | y :: ys, seen => by
    by_cases hy : y ∈ seen
    · rw [dedupSeen, if_pos hy]
      exact dedupSeen_nodup ys seen
    · rw [dedupSeen, if_neg hy]
      refine List.nodup_cons.2 ⟨fun h => ?_, dedupSeen_nodup ys (y :: seen)⟩
      exact ((mem_dedupSeen ys (y :: seen) y).1 h).2 (List.mem_cons_self y seen)

theorem foldl_set_eq : ∀ (l acc seen : List String), (∀ x, x ∈ seen ↔ x ∈ acc) →
    l.foldl (fun acc x => if x ∈ acc then acc else acc ++ [x]) acc =
      acc ++ dedupSeen seen l
  | [], acc, seen, _ => by simp [dedupSeen]
  | x :: xs, acc, seen, hinv => by
    simp only [List.foldl_cons]
    by_cases hx : x ∈ acc
    · rw [if_pos hx, dedupSeen, if_pos ((hinv x).2 hx),
        foldl_set_eq xs acc seen hinv]
    · rw [if_neg hx, dedupSeen, if_neg (fun h => hx ((hinv x).1 h)),
        foldl_set_eq xs (acc ++ [x]) (x :: seen) (fun z => ?_)]
      · simp
      · simp only [List.mem_cons, List.mem_append, List.mem_singleton, hinv z]
        tauto

theorem jsSetFromList_eq_dedupSeen (l : List String) :
    jsSetFromList l = dedupSeen [] l := by
  have h := foldl_set_eq l [] [] (by simp)
  simpa [jsSetFromList] using h

theorem dedupSeen_snoc : ∀ (l seen : List String) (x : String),
    dedupSeen seen (l ++ [x]) =
      if x ∈ seen ∨ x ∈ l then dedupSeen seen l else dedupSeen seen l ++ [x]
  | [], seen, x => by
    by_cases hx : x ∈ seen <;> simp [dedupSeen, hx]
  | y :: ys, seen, x => by
    rw [List.cons_append]
    by_cases hy : y ∈ seen
    · rw [dedupSeen, if_pos hy, dedupSeen_snoc ys seen x]
      by_cases hc : x ∈ seen ∨ x ∈ ys
      · rw [if_pos hc, if_pos ?hc2, dedupSeen, if_pos hy]
        case hc2 =>
          rcases hc with h | h
          · exact Or.inl h
          · exact Or.inr (List.mem_cons_of_mem y h)
      · rw [if_neg hc, if_neg ?hc3, dedupSeen, if_pos hy]
        case hc3 =>
          rintro (h | h)
          · exact hc (Or.inl h)
          · rcases List.mem_cons.1 h with h1 | h1
            · exact hc (Or.inl (h1 ▸ hy))
            · exact hc (Or.inr h1)
    · rw [dedupSeen, if_neg hy, dedupSeen_snoc ys (y :: seen) x]
      by_cases hc : x = y ∨ x ∈ seen ∨ x ∈ ys
      · rw [if_pos ?hc4, if_pos ?hc5, dedupSeen, if_neg hy]
        case hc4 =>
          rcases hc with h | h | h
          · exact Or.inl (List.mem_cons.2 (Or.inl h))
          · exact Or.inl (List.mem_cons_of_mem y h)
          · exact Or.inr h
        case hc5 =>
          rcases hc with h | h | h
          · exact Or.inr (List.mem_cons.2 (Or.inl h))
          · exact Or.inl h
          · exact Or.inr (List.mem_cons_of_mem y h)
      · rw [if_neg ?hc6, if_neg ?hc7, dedupSeen, if_neg hy, List.cons_append]
        case hc6 =>
          rintro (h | h)
          · rcases List.mem_cons.1 h with h1 | h1
            · exact hc (Or.inl h1)
            · exact hc (Or.inr (Or.inl h1))
          · exact hc (Or.inr (Or.inr h))
        case hc7 =>
          rintro (h | h)
          · exact hc (Or.inr (Or.inl h))
          · rcases List.mem_cons.1 h with h1 | h1
            · exact hc (Or.inl h1)
            · exact hc (Or.inr (Or.inr h1))

/-! ### Color-merge lemmas -/

theorem buildColorMap_foldl :
    ∀ (results : List AnalysisResult) (init : List (String × ℚ × String)),
      results.foldl (fun m r => r.colorDistribution.foldl updateColor m) init =
        (allColors results).foldl updateColor init
  | [], init => by simp [allColors]
  | r :: results, init => by
    simp only [List.foldl_cons, allColors, List.flatMap_cons, List.foldl_append]
    exact buildColorMap_foldl results _

theorem buildColorMap_eq (results : List AnalysisResult) :
    buildColorMap results = accumColors (allColors results) :=
  buildColorMap_foldl results []

theorem nameTotal_snoc (cs : List ColorData) (c : ColorData) (n : String) :
    nameTotal (cs ++ [c]) n = nameTotal cs n + (if c.name = n then c.value else 0) := by
  by_cases h : c.name = n
  · simp [nameTotal, List.filter_append, List.filter_cons, h]
  · simp [nameTotal, List.filter_append, List.filter_cons, h]

theorem lastHexD_snoc (cs : List ColorData) (c : ColorData) (n : String) :
    lastHexD (cs ++ [c]) n = if c.name = n then c.hex else lastHexD cs n := by
  by_cases h : c.name = n
  · simp [lastHexD, List.filter_append, List.filter_cons, h, List.getLast?_concat]
  · simp [lastHexD, List.filter_append, List.filter_cons, h]

theorem nameTotal_eq_zero (cs : List ColorData) (n : String)
    (h : ∀ x ∈ cs, x.name ≠ n) : nameTotal cs n = 0 := by
  have : cs.filter (fun c => c.name = n) = [] := by
    simp only [List.filter_eq_nil_iff, decide_eq_true_eq]
    exact h
  simp [nameTotal, this]

/-- The core accumulation characterization: folding `updateColor` over a flat
list of color tuples produces, in first-occurrence order of the names, one
entry per distinct name holding the total accumulated value and the hex of the
last tuple bearing that name. -/
theorem accumColors_eq (cs : List ColorData) :
    accumColors cs = (dedupSeen [] (cs.map (fun c => c.name))).map
      (fun n => (n, nameTotal cs n, lastHexD cs n)) := by
  induction cs using List.reverseRecOn with
  | nil => rfl
  | append_singleton cs c ih =>
    have hmemdd : ∀ n, n ∈ dedupSeen [] (cs.map (fun c => c.name)) ↔
        n ∈ cs.map (fun c => c.name) := by
      intro n
      rw [mem_dedupSeen]
      simp
    rw [List.map_append, List.map_singleton, dedupSeen_snoc]
    have hfold : accumColors (cs ++ [c]) = updateColor (accumColors cs) c := by
      simp [accumColors, List.foldl_append]
    by_cases hc : c.name ∈ cs.map (fun x => x.name)
    · rw [if_pos (Or.inr hc), hfold, ih, updateColor]
      rw [if_pos ?hin]
      case hin =>
        rw [List.map_map]
        have : (Prod.fst ∘ fun n => (n, nameTotal cs n, lastHexD cs n)) = id := rfl
        rw [this, List.map_id]
        exact (hmemdd c.name).2 hc
      rw [List.map_map]
      refine List.map_congr_left (fun n _ => ?_)
      simp only [Function.comp_apply]
      by_cases hn : n = c.name
      · subst hn
        rw [if_pos rfl, nameTotal_snoc, if_pos rfl, lastHexD_snoc, if_pos rfl]
      · rw [if_neg hn, nameTotal_snoc, lastHexD_snoc,
          if_neg (fun h => hn h.symm), if_neg (fun h => hn h.symm), add_zero]
    · rw [if_neg ?hout, hfold, ih, updateColor, if_neg ?hnotin]
      case hout =>
        rintro (h | h)
        · simp at h
        · exact hc h
      case hnotin =>
        rw [List.map_map]
        have : (Prod.fst ∘ fun n => (n, nameTotal cs n, lastHexD cs n)) = id := rfl
        rw [this, List.map_id]
        exact fun h => hc ((hmemdd c.name).1 h)
      rw [List.map_append, List.map_singleton]
      congr 1
      · refine List.map_congr_left (fun n hn => ?_)
        have hne : c.name ≠ n := by
          intro h
          exact hc (h ▸ (hmemdd n).1 hn)
        rw [nameTotal_snoc, if_neg hne, add_zero, lastHexD_snoc, if_neg hne]
      · have hall : ∀ x ∈ cs, x.name ≠ c.name := by
          intro x hx h
          exact hc (h ▸ List.mem_map_of_mem (fun c => c.name) hx)
        rw [nameTotal_snoc, if_pos rfl, nameTotal_eq_zero cs c.name hall, zero_add,
          lastHexD_snoc, if_pos rfl]

/-! ### Comma-split lemmas -/

theorem splitOnCommaChars_no_comma : ∀ (l : List Char), ',' ∉ l →
    splitOnCommaChars l = [l]
  | [], _ => rfl
  | c :: cs, h => by
    have h1 : ',' ∉ cs := fun hm => h (List.mem_cons_of_mem c hm)
    have hcne : ¬(c = ',') := fun hc => h (List.mem_cons.2 (Or.inl hc.symm))
    simp [splitOnCommaChars, hcne, splitOnCommaChars_no_comma cs h1]

theorem splitOnCommaChars_append : ∀ (a b : List Char), ',' ∉ a →
    splitOnCommaChars (a ++ ',' :: b) = a :: splitOnCommaChars b
  | [], b, _ => by simp [splitOnCommaChars]
  | c :: a, b, h => by
    have h1 : ',' ∉ a := fun hm => h (List.mem_cons_of_mem c hm)
    have hcne : ¬(c = ',') := fun hc => h (List.mem_cons.2 (Or.inl hc.symm))
    simp [splitOnCommaChars, hcne, splitOnCommaChars_append a b h1]

theorem toList_append (a b : String) : (a ++ b).toList = a.toList ++ b.toList := by
  cases a
  cases b
  rfl

theorem mk_toList (s : String) : String.mk s.toList = s := by
  cases s
  rfl

/-! ### Claim theorems -/

/-- C1 counterexample: two results both naming color A with value 50, with hex
#111 in the first and #222 in the second.  The code's `dominantColors` keeps
the later hex #222, while the computation described by the claim (first-seen
hex wins, later differing hex values discarded) keeps #111, so the claim as
stated is false on this input. -/
theorem dominantColors_firstHex_cex :
    dominantColors [cexA, cexB] = [ColorData.mk "A" 50 "#222"] ∧
    specDominantColorsFirstHex [cexA, cexB] = [ColorData.mk "A" 50 "#111"] ∧
    dominantColors [cexA, cexB] ≠ specDominantColorsFirstHex [cexA, cexB] := by
  have h1 : dominantColors [cexA, cexB] = [ColorData.mk "A" 50 "#222"] := by
    norm_num [dominantColors, buildColorMap, updateColor, sortByValueDesc, cexA, cexB,
      mkResult]
  have h2 : specDominantColorsFirstHex [cexA, cexB] = [ColorData.mk "A" 50 "#111"] := by
    norm_num [specDominantColorsFirstHex, allColors, dedupSeen, nameTotal, firstHexD,
      sortByValueDesc, cexA, cexB, mkResult]
  refine ⟨h1, h2, ?_⟩
  rw [h1, h2]
  simp

/-- C1 (amended): `dominantColors` is computed by summing every
colorDistribution tuple's value keyed by color name — with the LAST-seen hex
for a name winning on collision (earlier hex values overwritten) — then
dividing each summed value by the number of results, sorting descending by
averaged value (stably), and keeping the top 5.  Stated as equality with the
independent per-name computation `specDominantColors`, plus the sortedness of
the output. -/
theorem dominantColors_eq_spec (results : List AnalysisResult) :
    dominantColors results = specDominantColors results ∧
    (dominantColors results).Sorted (fun a b => b.value ≤ a.value) := by
  constructor
  · rw [dominantColors, specDominantColors, buildColorMap_eq, accumColors_eq,
      List.map_map]
    rfl
  · rw [dominantColors, sortByValueDesc]
    haveI htot : IsTotal ColorData (fun a b => b.value ≤ a.value) :=
      ⟨fun a b => le_total b.value a.value⟩
    haveI htrans : IsTrans ColorData (fun a b => b.value ≤ a.value) :=
      ⟨fun _ _ _ hab hbc => le_trans hbc hab⟩
    have hs := List.sorted_insertionSort (fun a b => b.value ≤ a.value)
      ((buildColorMap results).map
        (fun e => ColorData.mk e.1 (e.2.1 / (results.length : ℚ)) e.2.2))
    exact List.Pairwise.sublist (List.take_sublist 5 _) hs

/-- C2: a per-asset failure (a step returning none) omits that asset from the
results buffer without retrying, the loop continues with remaining samples,
and surviving results keep the samples' relative order: the per-asset loop
computes exactly `List.filterMap` of the step over the sample list, and hence
the buffer is never longer than the sample list. -/
theorem runAnalysis_eq_filterMap {α : Type} (step : α → Option AnalysisResult)
    (samples : List α) :
    runAnalysis step samples = samples.filterMap step ∧
    (runAnalysis step samples).length ≤ samples.length := by
  have h0 : runAnalysis step samples = samples.filterMap step := by
    simpa [runAnalysis] using runAnalysis_foldl_eq step samples []
  refine ⟨h0, ?_⟩
  rw [h0]
  exact List.length_filterMap_le step samples

/-- C3: in every run the synthesizer is invoked only on a non-empty results
buffer (every argument list in the call trace is non-empty), and a summary is
present in the final state only if at least one AnalysisResult exists. -/
theorem synthCalls_nonempty {α : Type} (step : α → Option AnalysisResult)
    (synth : List AnalysisResult → Option CollectionSummary)
    (shuffle : List α → List α) (files : List α) :
    (∀ l ∈ synthCalls step shuffle files, l ≠ []) ∧
    ((handleUpload step synth shuffle files).2.isSome = true →
      (handleUpload step synth shuffle files).1 ≠ []) := by
  constructor
  · intro l hl
    by_cases h : 0 < (runAnalysis step (sampler shuffle files)).length
    · simp only [synthCalls, gt_iff_lt, if_pos h, List.mem_singleton] at hl
      subst hl
      exact List.length_pos.1 h
    · simp only [synthCalls, gt_iff_lt, if_neg h] at hl
      exact absurd hl (List.not_mem_nil l)
  · intro hs
    simp only [handleUpload] at hs ⊢
    by_cases h : 0 < (runAnalysis step (sampler shuffle files)).length
    · exact List.length_pos.1 h
    · rw [if_neg h] at hs
      simp at hs

/-- C3 witness: a concrete one-file run in which the synthesis call list
contains the non-empty singleton buffer and the final summary is present. -/
theorem synthCalls_nonempty_w :
    [dummyResult] ≠ ([] : List AnalysisResult) ∧
    (handleUpload stepSome synthSome (fun l => l) [()]).1 ≠ [] := by
  refine ⟨?_, ?_⟩
  · exact (synthCalls_nonempty stepSome synthSome (fun l => l) [()]).1 [dummyResult]
      (by decide)
  · exact (synthCalls_nonempty stepSome synthSome (fun l => l) [()]).2 (by decide)

/-- C4: avgSharpness, avgComplexity and avgUniqueness each equal the
arithmetic mean (sum divided by N) of the corresponding per-result field, and
for a non-empty list avgSharpness lies between any lower and any upper bound
of the sharpness values — in particular between their minimum and maximum. -/
theorem avg_fields_are_means (results : List AnalysisResult) (lo hi : ℚ)
    (hne : results ≠ [])
    (hbound : ∀ r ∈ results, lo ≤ r.sharpness ∧ r.sharpness ≤ hi) :
    avgSharpness results =
      (results.map (fun r => r.sharpness)).sum / (results.length : ℚ) ∧
    avgComplexity results =
      (results.map (fun r => r.complexity)).sum / (results.length : ℚ) ∧
    avgUniqueness results =
      (results.map (fun r => r.uniquenessScore)).sum / (results.length : ℚ) ∧
    lo ≤ avgSharpness results ∧ avgSharpness results ≤ hi := by
  have hlen : 0 < (results.length : ℚ) := by
    have h := List.length_pos.2 hne
    exact_mod_cast h
  have hsh : avgSharpness results =
      (results.map (fun r => r.sharpness)).sum / (results.length : ℚ) := by
    simp only [avgSharpness, foldl_add_eq_sum, zero_add]
  have hub : (results.map (fun r => r.sharpness)).sum ≤ (results.length : ℚ) * hi := by
    have h2 := sum_le_length_mul (results.map (fun r => r.sharpness)) hi
      (fun x hx => by
        rcases List.mem_map.1 hx with ⟨r, hr, hxr⟩
        exact hxr ▸ (hbound r hr).2)
    simpa using h2
  have hlb : (results.length : ℚ) * lo ≤ (results.map (fun r => r.sharpness)).sum := by
    have h2 := length_mul_le_sum (results.map (fun r => r.sharpness)) lo
      (fun x hx => by
        rcases List.mem_map.1 hx with ⟨r, hr, hxr⟩
        exact hxr ▸ (hbound r hr).1)
    simpa using h2
  refine ⟨hsh, ?_, ?_, ?_, ?_⟩
  · simp only [avgComplexity, foldl_add_eq_sum, zero_add]
  · simp only [avgUniqueness, foldl_add_eq_sum, zero_add]
  · rw [hsh, le_div_iff₀ hlen]
    calc lo * (results.length : ℚ) = (results.length : ℚ) * lo := mul_comm _ _
    _ ≤ _ := hlb
  · rw [hsh, div_le_iff₀ hlen]
    calc (results.map (fun r => r.sharpness)).sum ≤ (results.length : ℚ) * hi := hub
    _ = hi * (results.length : ℚ) := mul_comm _ _

/-- C4 witness: a concrete two-result list with sharpness values 40 and 30,
bounded below by 30 and above by 40; the average lies between the bounds. -/
theorem avg_fields_are_means_w :
    30 ≤ avgSharpness [satLow, dummyResult] ∧ avgSharpness [satLow, dummyResult] ≤ 40 := by
  have h := avg_fields_are_means [satLow, dummyResult] 30 40 (by decide) (by decide)
  exact ⟨h.2.2.2.1, h.2.2.2.2⟩

/-- C5: topStyles is the flattening of all styleFeatures lists in result
order, deduplicated preserving first-occurrence order, truncated to 4
entries: it equals the take-4 of the independent recursive first-occurrence
dedup, it is duplicate-free, it is a sublist of the flattening (preserving
relative order), it has at most 4 entries, and it matches the claim's
example. -/
theorem topStyles_spec (results : List AnalysisResult) :
    topStyles results =
      (dedupSeen [] (results.flatMap (fun r => r.styleFeatures))).take 4 ∧
    (topStyles results).Nodup ∧
    (topStyles results).Sublist (results.flatMap (fun r => r.styleFeatures)) ∧
    (topStyles results).length ≤ 4 ∧
    topStyles [mkResult [] 0 0 0 0 ["X", "Y"], mkResult [] 0 0 0 0 ["Y", "Z"],
      mkResult [] 0 0 0 0 ["W"]] = ["X", "Y", "Z", "W"] := by
  have h0 : topStyles results =
      (dedupSeen [] (results.flatMap (fun r => r.styleFeatures))).take 4 := by
    rw [topStyles, jsSetFromList_eq_dedupSeen]
  refine ⟨h0, ?_, ?_, ?_, by decide⟩
  · rw [h0]
    exact (dedupSeen_nodup _ _).sublist (List.take_sublist 4 _)
  · rw [h0]
    exact (List.take_sublist 4 _).trans (dedupSeen_sublist _ _)
  · rw [h0]
    exact List.length_take_le 4 _

/-- C6: for a batch of more than 6 files the sampler returns exactly 6
elements, all drawn from the batch, without duplicates — given that the
shuffle produces a rearrangement (permutation) of the batch and that the file
handles in the batch are distinct. -/
theorem sampler_large {α : Type} (shuffle : List α → List α) (files : List α)
    (hperm : (shuffle files).Perm files) (hnd : files.Nodup)
    (h6 : 6 < files.length) :
    (sampler shuffle files).length = 6 ∧
    (∀ x ∈ sampler shuffle files, x ∈ files) ∧
    (sampler shuffle files).Nodup := by
  have hs : sampler shuffle files = (shuffle files).take 6 := by
    simp [sampler, h6]
  refine ⟨?_, ?_, ?_⟩
  · rw [hs, List.length_take, hperm.length_eq]
    omega
  · intro x hx
    rw [hs] at hx
    exact hperm.subset (List.take_subset 6 _ hx)
  · rw [hs]
    exact (hperm.nodup_iff.2 hnd).sublist (List.take_sublist 6 _)

/-- C6 witness: a concrete 7-element batch sampled through a reversing
shuffle: 6 elements, no duplicates. -/
theorem sampler_large_w :
    (sampler (fun l => l.reverse) ([0, 1, 2, 3, 4, 5, 6] : List ℕ)).length = 6 ∧
    (sampler (fun l => l.reverse) ([0, 1, 2, 3, 4, 5, 6] : List ℕ)).Nodup := by
  have h := sampler_large (fun l => l.reverse) ([0, 1, 2, 3, 4, 5, 6] : List ℕ)
    (List.reverse_perm _) (by decide) (by decide)
  exact ⟨h.1, h.2.2⟩

/-- C7: for a batch of at most 6 files the sampler returns the batch itself
unchanged, in the same order (including the empty batch). -/
theorem sampler_small {α : Type} (shuffle : List α → List α) (files : List α)
    (h : files.length ≤ 6) : sampler shuffle files = files := by
  have h2 : ¬(files.length > 6) := by omega
  simp [sampler, h2]

/-- C7 witness: the empty batch is returned unchanged. -/
theorem sampler_small_w :
    ([] : List ℕ).length ≤ 6 ∧ sampler (fun l => l.reverse) ([] : List ℕ) = [] :=
  ⟨by decide, sampler_small (fun l => l.reverse) [] (by decide)⟩

/-- C8 counterexample: two single-result lists that differ only in the
saturation field produce identical GlobalReportData, while their saturation
means differ — so the aggregator output contains no avgSaturation field (no
component of it can equal the saturation mean). -/
theorem reportData_no_saturation_cex :
    reportData [satLow] none = reportData [satHigh] none ∧
    radarSaturation [satLow] ≠ radarSaturation [satHigh] := by
  constructor
  · norm_num [reportData, avgSharpness, avgComplexity, avgUniqueness, topStyles,
      jsSetFromList, dominantColors, buildColorMap, satLow, satHigh, mkResult]
  · norm_num [radarSaturation, satLow, satHigh, mkResult]

/-- C8 (amended): GlobalReportData has no avgSaturation field; the saturation
mean is computed separately for the dashboard's radar chart, and that radar
entry equals the arithmetic mean of the saturation field across all results. -/
theorem radarSaturation_is_mean (results : List AnalysisResult) :
    radarSaturation results =
      (results.map (fun r => r.saturation)).sum / (results.length : ℚ) := by
  simp only [radarSaturation, foldl_add_eq_sum, zero_add]

/-- C9: the dashboard — the only view whose payload divides by
results.length, in the report averages, the color-merge normalization, and
the radar saturation mean — is rendered only when the results list is
non-empty, so each of those divisors is a positive count, never zero. -/
theorem dashboard_requires_results (analyzing : Bool) (results : List AnalysisResult)
    (summary : Option CollectionSummary) (rep : GlobalReportData) (sat : ℚ)
    (h : appView analyzing results summary = AppView.dashboard rep sat) :
    results ≠ [] ∧ 0 < results.length ∧ ((results.length : ℚ) ≠ 0) ∧
    rep = reportData results summary ∧ sat = radarSaturation results := by
  by_cases ha : analyzing
  · rw [appView, if_pos ha] at h
    exact absurd h (by simp)
  · rw [appView, if_neg ha] at h
    by_cases hr : results.length > 0
    · rw [if_pos hr] at h
      injection h with h1 h2
      refine ⟨List.length_pos.1 hr, hr, ?_, h1.symm, h2.symm⟩
      have hne : results.length ≠ 0 := Nat.pos_iff_ne_zero.1 hr
      exact_mod_cast hne
    · rw [if_neg hr] at h
      exact absurd h (by simp)

/-- C9 witness: the dashboard arising from a concrete singleton results list
has a non-empty list and a non-zero rational divisor. -/
theorem dashboard_requires_results_w :
    ([dummyResult] : List AnalysisResult) ≠ [] ∧
    ((([dummyResult] : List AnalysisResult).length : ℚ) ≠ 0) := by
  have h := dashboard_requires_results false [dummyResult] none
    (reportData [dummyResult] none) (radarSaturation [dummyResult]) rfl
  exact ⟨h.1, h.2.2.1⟩

/-- C10 counterexample: on the input a,b,c (more than one comma) the code's
payload is "b", the segment between the first and second commas, while the
claim's payload — the substring of the input after its first comma — is
"b,c"; the two differ, so the claim as stated is false on this input. -/
theorem analyzeRequest_payload_cex :
    (analyzeRequest "a,b,c").data = some "b" ∧
    afterFirstComma "a,b,c" = some "b,c" ∧
    (analyzeRequest "a,b,c").data ≠ afterFirstComma "a,b,c" := by
  refine ⟨by decide, by decide, by decide⟩

/-- C10 (amended): analyzeAsset declares the constant media type image/jpeg
regardless of the input; the binary payload is the SECOND comma-separated
segment of the input (for an input of the data-URL shape head ++ "," ++ tail
with comma-free head and tail, exactly the tail; missing when the input has
no comma); and on success the returned result stores the full unmodified
input string as its thumbnail, with the parsed fields passed through. -/
theorem analyzeAsset_contract (s a b : String) (remote : InlineData → Option RawAnalysis)
    (newId : String) (raw : RawAnalysis)
    (ha : ',' ∉ a.toList) (hb : ',' ∉ b.toList)
    (hr : remote (analyzeRequest s) = some raw) :
    (analyzeRequest s).mimeType = "image/jpeg" ∧
    (analyzeRequest (a ++ "," ++ b)).data = some b ∧
    analyzeAsset remote newId s = some (AnalysisResult.mk newId s raw.colorDistribution
      raw.sharpness raw.complexity raw.saturation raw.styleFeatures raw.clipSimilarity
      raw.uniquenessScore raw.description) := by
  refine ⟨rfl, ?_, ?_⟩
  · have h1 : (a ++ "," ++ b).toList = a.toList ++ ',' :: b.toList := by
      rw [toList_append, toList_append, List.append_assoc]
      rfl
    show (jsSplitComma (a ++ "," ++ b))[1]? = some b
    rw [jsSplitComma, h1, splitOnCommaChars_append a.toList b.toList ha,
      splitOnCommaChars_no_comma b.toList hb]
    simp [mk_toList]
  · rw [analyzeAsset, hr, Option.map_some']

/-- C10 witness: the contract applied to the concrete data-URL-shaped input
"head," ++ "payload" with a stub remote service. -/
theorem analyzeAsset_contract_w :
    (analyzeRequest "head,payload").mimeType = "image/jpeg" ∧
    (analyzeRequest ("head" ++ "," ++ "payload")).data = some "payload" := by
  have h := analyzeAsset_contract "head,payload" "head" "payload"
    (fun _ => some (RawAnalysis.mk [] 0 0 0 [] [] 0 "d")) "nid"
    (RawAnalysis.mk [] 0 0 0 [] [] 0 "d") (by decide) (by decide) rfl
  exact ⟨h.1, h.2.1⟩

end AssetAnalysis
